import Mathlib

/-!
Verification of the inline-comments proof-of-concept (three anchoring
strategies for comments over a ProseMirror/Tiptap document).

The document model is embedded shallowly: a ProseMirror document is a tree
whose leaves are text runs carrying marks and whose interior nodes are block
elements (paragraph, heading, list, ...; the StarterKit schema used by the
POC has only block elements besides text).  ProseMirror positions are indices
into the flattened token stream: entering or leaving a block element costs
one unit, each character costs one unit.  Mark-set normalisation details of
ProseMirror that no observed quantity depends on (merging of adjacent text
leaves with identical mark sets) are not modelled; coalesced marker spans and
textBetween are invariant under that merging.

JS strings that are processed character-wise are modelled as List Char;
identifiers and type names that are only compared for equality are String.
-/

/-- A ProseMirror mark as used by the POC: only its type name and, for the
CommentMark extension, the commentId attribute are ever inspected. -/
structure CMark where
  typeName : String
  commentId : Option String
deriving DecidableEq

/-- CommentMark.name : the mark type name of the comment mark extension. -/
def commentMarkName : String := "commentMark"

mutual
/-- A ProseMirror node: a text leaf (with marks) or a block element.
`level` models the `level` attribute of headings (the only attribute the
code ever reads, in prosemirrorTypeToTagName). -/
inductive PMNode : Type where
  | text (s : List Char) (marks : List CMark) : PMNode
  | elem (typeName : String) (level : Option Nat) (children : PMList) : PMNode
/-- A list of sibling nodes (the content of an element or of the doc). -/
inductive PMList : Type where
  | nil : PMList
  | cons (head : PMNode) (tail : PMList) : PMList
end

/-- A document is the content of the root doc node. -/
abbrev PMDoc := PMList

mutual
/-- node.nodeSize: text = number of characters, element = 2 + content size. -/
def sizeN : PMNode → Nat
  | .text s _ => s.length
  | .elem _ _ cs => 2 + sizeL cs
/-- fragment.size: sum of the sizes of the children. -/
def sizeL : PMList → Nat
  | .nil => 0
  | .cons n ns => sizeN n + sizeL ns
end

/-- doc.content.size of a document. -/
def contentSize (d : PMDoc) : Nat := sizeL d

/-- One text leaf as enumerated by doc.descendants: its absolute start
position, its characters, and its marks. -/
structure Leaf where
  pos : Nat
  txt : List Char
  marks : List CMark
deriving DecidableEq

mutual
/-- The text leaves of a node whose content starts at absolute position pos
(for an element, children start one unit further in). -/
def leavesN (pos : Nat) : PMNode → List Leaf
  | .text s ms => [⟨pos, s, ms⟩]
  | .elem _ _ cs => leavesL (pos + 1) cs
/-- The text leaves of a sibling list starting at absolute position pos. -/
def leavesL (pos : Nat) : PMList → List Leaf
  | .nil => []
  | .cons n ns => leavesN pos n ++ leavesL (pos + sizeN n) ns
end

/-- The text leaves of a document, in document order. -/
def docLeaves (d : PMDoc) : List Leaf := leavesL 0 d

mutual
/-- doc.textBetween(f, t, sep), one node: the state is
(text accumulated so far, `separated` flag of Fragment.textBetween).
A text node overlapping (f, t) contributes text.slice(max(f,pos)-pos, t-pos)
and clears `separated`; a block element overlapping (f, t) first appends the
separator when `separated` is not set, then descends into its children. -/
def tbN (f t : Nat) (sep : List Char) (pos : Nat) (st : List Char × Bool) :
    PMNode → List Char × Bool
  | .text s _ =>
      if pos < t ∧ f < pos + s.length then
        let a := max f pos - pos
        (st.1 ++ (s.drop a).take (t - pos - a), false)
      else st
  | .elem _ _ cs =>
      if pos < t ∧ f < pos + (2 + sizeL cs) then
        tbL f t sep (pos + 1) (if st.2 then st else (st.1 ++ sep, true)) cs
      else st
/-- doc.textBetween over a sibling list starting at absolute position pos. -/
def tbL (f t : Nat) (sep : List Char) (pos : Nat) (st : List Char × Bool) :
    PMList → List Char × Bool
  | .nil => st
  | .cons n ns => tbL f t sep (pos + sizeN n) (tbN f t sep pos st n) ns
end

/-- doc.textBetween(f, t, sep) — the `separated` flag starts true so that no
leading separator is emitted. -/
def textBetween (d : PMDoc) (f t : Nat) (sep : List Char) : List Char :=
  (tbL f t sep 0 ([], true) d).1

/-- mark.addToSet(marks): a mark type is exclusive with itself by default, so
adding a mark replaces any mark of the same type. -/
def addToSet (m : CMark) (ms : List CMark) : List CMark :=
  (ms.filter (fun x => x.typeName ≠ m.typeName)) ++ [m]

/-- Helper: build a PMList from a List of nodes. -/
def ofList : List PMNode → PMList
  | [] => .nil
  | n :: ns => .cons n (ofList ns)

/-- Helper: append two sibling lists. -/
def appendPM : PMList → PMList → PMList
  | .nil, ys => ys
  | .cons x xs, ys => .cons x (appendPM xs ys)

mutual
/-- tr.addMark(f, t, m) on one node whose own start position is pos
(text) / whose content starts at pos + 1 (element): a text leaf overlapping
[f, t) is split into up to three leaves, the overlapped middle receiving the
mark; block elements recurse.  Returns the replacement sibling list. -/
def applyN (f t : Nat) (m : CMark) (pos : Nat) : PMNode → PMList
  | .text s ms =>
      if pos < t ∧ f < pos + s.length then
        let a := max f pos - pos
        let b := min t (pos + s.length) - pos
        ofList ((if 0 < a then [PMNode.text (s.take a) ms] else []) ++
          [PMNode.text ((s.drop a).take (b - a)) (addToSet m ms)] ++
          (if b < s.length then [PMNode.text (s.drop b) ms] else []))
      else .cons (.text s ms) .nil
  | .elem ty lv cs => .cons (.elem ty lv (applyL f t m (pos + 1) cs)) .nil
/-- tr.addMark(f, t, m) over a sibling list starting at pos. -/
def applyL (f t : Nat) (m : CMark) (pos : Nat) : PMList → PMList
  | .nil => .nil
  | .cons n ns => appendPM (applyN f t m pos n) (applyL f t m (pos + sizeN n) ns)
end

/-- applyCommentMarkToSelection: apply CommentMark{commentId} over the
selection [f, t) (the framework splits text leaves at the boundaries). -/
def applyCommentMarkToSelection (d : PMDoc) (f t : Nat) (cid : String) : PMDoc :=
  applyL f t ⟨commentMarkName, some cid⟩ 0 d

-- sanity examples (document model)
example : contentSize (.cons (.elem "paragraph" none
    (.cons (.text "ab".toList []) .nil)) .nil) = 4 := rfl
example : textBetween (.cons (.elem "paragraph" none
    (.cons (.text "ab".toList []) .nil))
    (.cons (.elem "paragraph" none .nil) .nil)) 0 6 " ".toList = "ab ".toList := rfl
example : docLeaves (applyCommentMarkToSelection
    (.cons (.elem "paragraph" none (.cons (.text "ab".toList []) .nil)) .nil) 0 4 "c1") =
    [⟨1, "ab".toList, [⟨commentMarkName, some "c1"⟩]⟩] := rfl

/-! ## Marker scan and synchronizer (src tiptap.utils: syncCommentPositionsWithEditorState) -/

/-- The scan condition of syncCommentPositionsWithEditorState for a text
leaf's mark: mark.type.name === CommentMark.name, mark.attrs.commentId is a
truthy string, and that string is the queried id. -/
def isCommentMarkFor (id : String) (m : CMark) : Bool :=
  m.typeName == commentMarkName && m.commentId == some id && id != ""

/-- The run (markSegmentFrom, markSegmentTo) = (pos, pos + node.nodeSize)
contributed by one text leaf when its marks carry CommentMark with the given
id. -/
def runOf (id : String) (lf : Leaf) : Option (Nat × Nat) :=
  if lf.marks.any (isCommentMarkFor id) then some (lf.pos, lf.pos + lf.txt.length)
  else none

/-- The runs of the text leaves whose marks carry CommentMark with the given
id, in document order. -/
def markRuns (d : PMDoc) (id : String) : List (Nat × Nat) :=
  (docLeaves d).filterMap (runOf id)

/-- The update of one Map entry by a later run of the same id: min into
from, max into to. -/
def spanStep (acc x : Nat × Nat) : Nat × Nat := (min acc.1 x.1, max acc.2 x.2)

/-- currentMarksInDoc.get(id): a first run sets the entry, later runs fold
min into from and max into to — i.e. the coalesced span of all runs. -/
def coalesce : List (Nat × Nat) → Option (Nat × Nat)
  | [] => none
  | r :: rs => some (rs.foldl spanStep r)

/-- The Map built by the synchronizer's single document scan, queried at a
comment id. -/
def scanMark (d : PMDoc) (id : String) : Option (Nat × Nat) :=
  coalesce (markRuns d id)

/-- The position record of an InlineComment (all fields optional, exactly as
in comment.types.ts). -/
structure CommentPosition where
  textFragment : Option (List Char) := none
  fromPos : Option Nat := none
  toPos : Option Nat := none
  path : Option (List Char) := none
  startOffset : Option Nat := none
  endOffset : Option Nat := none
deriving DecidableEq

/-- InlineReply (id, author, text, createdAt). -/
structure InlineReply where
  id : String
  author : String
  text : String
  createdAt : Int
deriving DecidableEq

/-- InlineComment, as in comment.types.ts; createdAt (a JS Date) is modelled
as an opaque integer timestamp. -/
structure InlineComment where
  id : String
  author : String
  text : String
  createdAt : Int
  resolved : Bool
  type : String
  position : Option CommentPosition := none
  replies : Option (List InlineReply) := none
deriving DecidableEq

/-- The orphaned fragment: `[ORPHANED] ${comment.position.textFragment ||
'No original text'}` — an empty or missing fragment is falsy in JS. -/
def orphanedFragmentText (tf : Option (List Char)) : List Char :=
  "[ORPHANED] ".toList ++ (match tf with
    | some s => if s = [] then "No original text".toList else s
    | none => "No original text".toList)

/-- The position object written by the rebind branch of the synchronizer:
{from, to, textFragment: editorDoc.textBetween(from, to, ' ')} (the local
newTextFragment of the source, inlined). -/
def newPosition (d : PMDoc) (f t : Nat) : CommentPosition :=
  {textFragment := some (textBetween d f t " ".toList), fromPos := some f, toPos := some t}

/-- The position object written by the orphan branch of the synchronizer. -/
def orphanPosition (p : CommentPosition) : CommentPosition :=
  {textFragment := some (orphanedFragmentText p.textFragment), fromPos := none, toPos := none}

/-- The body of prevComments.map in syncCommentPositionsWithEditorState:
updates one comment against the scan of the document, returning the updated
comment and whether this comment set commentsStateChanged. -/
def syncOne (d : PMDoc) (c : InlineComment) : InlineComment × Bool :=
  if c.id = "" then (c, false)
  else
    match scanMark d c.id with
    | some (f, t) =>
        match c.position with
        | none => ({c with position := some (newPosition d f t)}, true)
        | some p =>
            if p.fromPos = none ∨ some f ≠ p.fromPos ∨ some t ≠ p.toPos ∨
                some (textBetween d f t " ".toList) ≠ p.textFragment then
              ({c with position := some (newPosition d f t)}, true)
            else (c, false)
    | none =>
        match c.position with
        | some p =>
            match p.fromPos with
            | some _ => ({c with position := some (orphanPosition p)}, true)
            | none => (c, false)
        | none => (c, false)

/-- syncCommentPositionsWithEditorState: early return on an empty comment
list, otherwise map every comment through the scan; commentsStateChanged is
set iff some comment was rewritten. -/
def syncCommentPositionsWithEditorState (d : PMDoc) (prev : List InlineComment) :
    List InlineComment × Bool :=
  if prev.length = 0 then (prev, false)
  else ((prev.map (syncOne d)).map Prod.fst, (prev.map (syncOne d)).any Prod.snd)

/-- The position stored by handleAddComment for an Offset comment:
{from, to, textFragment: doc.textBetween(from, to, ' ')}. -/
def computeOffsetPosition (d : PMDoc) (f t : Nat) : CommentPosition :=
  {fromPos := some f, toPos := some t, textFragment := some (textBetween d f t " ".toList)}

/-- The Offset comment created by handleAddComment (display-only fields like
author and the derived comment text do not affect any claim and are taken as
given). -/
def mkOffsetComment (cid : String) (d : PMDoc) (f t : Nat) : InlineComment :=
  {id := cid, author := "user-current", text := "", createdAt := 0,
   resolved := false, type := "offset", position := some (computeOffsetPosition d f t)}

/-- Erase the position field (used to state that the synchronizer rewrites
nothing but position). -/
def erasePosition (c : InlineComment) : InlineComment := {c with position := none}

/-! ## C10 / C5 : frame and idempotence of the synchronizer -/

theorem syncOne_erasePosition (d : PMDoc) (c : InlineComment) :
    erasePosition (syncOne d c).1 = erasePosition c := by
  unfold syncOne
  repeat' split
  all_goals rfl

theorem syncOne_mapErase (d : PMDoc) :
    ∀ cs : List InlineComment,
      (((cs.map (syncOne d)).map Prod.fst).map erasePosition) = cs.map erasePosition := by
  intro cs
  induction cs with
  | nil => rfl
  | cons c cs ih =>
      simp only [List.map_cons, List.cons.injEq]
      exact ⟨syncOne_erasePosition d c, ih⟩

/-- C10: syncCommentPositionsWithEditorState returns a list of the same
length with the same comments in the same order, and rewrites nothing but
the position field: erasing position on input and output gives equal lists,
so id, author, text, createdAt, resolved, type and replies are all
preserved per index. -/
theorem sync_rewrites_only_position (d : PMDoc) (cs : List InlineComment) :
    (syncCommentPositionsWithEditorState d cs).1.map erasePosition =
      cs.map erasePosition := by
  unfold syncCommentPositionsWithEditorState
  split
  · rfl
  · exact syncOne_mapErase d cs

theorem syncOne_idem (d : PMDoc) (c : InlineComment) :
    syncOne d (syncOne d c).1 = ((syncOne d c).1, false) := by
  by_cases hid : c.id = ""
  · simp [syncOne, hid]
  · rcases hs : scanMark d c.id with _ | ⟨f, t⟩
    · rcases hp : c.position with _ | p
      · have h1 : syncOne d c = (c, false) := by simp [syncOne, hid, hs, hp]
        rw [h1]
        exact h1
      · rcases hf : p.fromPos with _ | x
        · have h1 : syncOne d c = (c, false) := by simp [syncOne, hid, hs, hp, hf]
          rw [h1]
          exact h1
        · have h1 : syncOne d c = ({c with position := some (orphanPosition p)}, true) := by
            simp [syncOne, hid, hs, hp, hf]
          rw [h1]
          simp [syncOne, hid, hs, orphanPosition]
    · rcases hp : c.position with _ | p
      · have h1 : syncOne d c = ({c with position := some (newPosition d f t)}, true) := by
          simp [syncOne, hid, hs, hp]
        rw [h1]
        simp [syncOne, hid, hs, newPosition]
      · by_cases hcond : p.fromPos = none ∨ some f ≠ p.fromPos ∨ some t ≠ p.toPos ∨
            some (textBetween d f t " ".toList) ≠ p.textFragment
        · have h1 : syncOne d c = ({c with position := some (newPosition d f t)}, true) := by
            unfold syncOne
            rw [if_neg hid, hs, hp]
            dsimp only
            rw [if_pos hcond]
          rw [h1]
          simp [syncOne, hid, hs, newPosition]
        · have h1 : syncOne d c = (c, false) := by
            unfold syncOne
            rw [if_neg hid, hs, hp]
            dsimp only
            rw [if_neg hcond]
          rw [h1]
          exact h1

theorem syncList_idem (d : PMDoc) :
    ∀ cs : List InlineComment,
      ((cs.map (syncOne d)).map Prod.fst).map (syncOne d) =
        (cs.map (syncOne d)).map (fun r => (r.1, false)) := by
  intro cs
  induction cs with
  | nil => rfl
  | cons c cs ih =>
      simp only [List.map_cons, List.cons.injEq]
      exact ⟨syncOne_idem d c, ih⟩

/-- C5: the synchronizer is idempotent — running
syncCommentPositionsWithEditorState again on the same document, feeding it
the comment list produced by the first run, returns that list unchanged and
reports commentsStateChanged = false. -/
theorem sync_idempotent (d : PMDoc) (cs : List InlineComment) :
    syncCommentPositionsWithEditorState d
        (syncCommentPositionsWithEditorState d cs).1 =
      ((syncCommentPositionsWithEditorState d cs).1, false) := by
  rcases cs with _ | ⟨c, cs⟩
  · rfl
  · show syncCommentPositionsWithEditorState d
        (((c :: cs).map (syncOne d)).map Prod.fst) = _
    unfold syncCommentPositionsWithEditorState
    rw [if_neg (by simp), if_neg (by simp)]
    rw [syncList_idem d (c :: cs)]
    refine Prod.ext ?_ ?_
    · show (((c :: cs).map (syncOne d)).map (fun r => (r.1, false))).map Prod.fst = _
      simp only [List.map_map]
      rfl
    · show (((c :: cs).map (syncOne d)).map (fun r => (r.1, false))).any Prod.snd = false
      rw [List.any_map]
      simp

/-! ## C2 / C3 : orphaning and (non-)re-binding -/

theorem sync_length (d : PMDoc) (cs : List InlineComment) :
    (syncCommentPositionsWithEditorState d cs).1.length = cs.length := by
  unfold syncCommentPositionsWithEditorState
  split
  · rfl
  · simp

theorem sync_getElem? (d : PMDoc) (cs : List InlineComment) (i : Nat) :
    (syncCommentPositionsWithEditorState d cs).1[i]? =
      (cs[i]?).map (fun c => (syncOne d c).1) := by
  unfold syncCommentPositionsWithEditorState
  split
  · rename_i h
    rw [List.length_eq_zero] at h
    subst h
    rfl
  · simp only [List.getElem?_map, Option.map_map]
    rfl

theorem markRuns_empty_scanMark {d : PMDoc} {id : String}
    (hm : markRuns d id = []) : scanMark d id = none := by
  unfold scanMark
  rw [hm]
  rfl

/-- C2 (amended): a bound comment (numeric from stored, non-empty id) whose
marker no longer occurs on any text leaf is transitioned to Orphaned by the
synchronizer: from and to are cleared, the stored textFragment is replaced by
orphanedFragmentText (the '[ORPHANED] ' prefix in front of the old fragment
when that fragment is present and non-empty, and in front of
'No original text' otherwise), every other field is kept, and the comment
remains in the collection at its index. -/
theorem sync_orphan_transition (d : PMDoc) (cs : List InlineComment) (i : Nat)
    (c : InlineComment) (p : CommentPosition) (x : Nat)
    (hi : cs[i]? = some c) (hid : c.id ≠ "") (hp : c.position = some p)
    (hx : p.fromPos = some x) (hm : markRuns d c.id = []) :
    (syncCommentPositionsWithEditorState d cs).1.length = cs.length ∧
    (syncCommentPositionsWithEditorState d cs).1[i]? =
      some {c with position := some (orphanPosition p)} := by
  refine ⟨sync_length d cs, ?_⟩
  rw [sync_getElem?, hi]
  have hscan := markRuns_empty_scanMark hm
  simp [syncOne, hid, hscan, hp, hx]

/-- Bound position used by the C2 witness. -/
def pBoundW : CommentPosition :=
  {textFragment := some "ab".toList, fromPos := some 1, toPos := some 3}

/-- Bound comment used by the C2 witness. -/
def cBoundW : InlineComment :=
  {id := "c1", author := "u", text := "t", createdAt := 0,
   resolved := false, type := "offset", position := some pBoundW}

theorem sync_orphan_transition_witness :
    (syncCommentPositionsWithEditorState PMList.nil [cBoundW]).1.length = 1 ∧
    (syncCommentPositionsWithEditorState PMList.nil [cBoundW]).1[0]? =
      some {cBoundW with position := some (orphanPosition pBoundW)} := by
  have h := sync_orphan_transition PMList.nil [cBoundW] 0 cBoundW pBoundW 1
    rfl (by decide) rfl rfl rfl
  exact ⟨h.1.trans rfl, h.2⟩

/-- Comment with a bound position and a non-empty stored fragment (for the
C2 counterexample). -/
def cFragAbc : InlineComment :=
  {id := "a", author := "u", text := "t", createdAt := 0, resolved := false,
   type := "offset",
   position := some {textFragment := some "abc".toList, fromPos := some 1, toPos := some 4}}

/-- Comment with a bound position whose stored fragment is the empty string
(for the C2 counterexample). -/
def cFragEmpty : InlineComment :=
  {id := "b", author := "u", text := "t", createdAt := 0, resolved := false,
   type := "offset",
   position := some {textFragment := some [], fromPos := some 0, toPos := some 2}}

/-- C2 counterexample: orphaning does not always prefix the retained
textFragment with an orphan marker string.  Running the synchronizer on an
empty document over two bound comments, one with fragment 'abc' and one with
the (retained) fragment '', yields '[ORPHANED] abc' and
'[ORPHANED] No original text': no single marker string m satisfies
new = m ++ old for both, because the code substitutes 'No original text'
for a falsy (empty) fragment instead of retaining it. -/
theorem sync_orphan_fragment_counterexample :
    ((syncCommentPositionsWithEditorState PMList.nil [cFragAbc, cFragEmpty]).1.map
        (fun c => c.position.bind CommentPosition.textFragment)) =
      [some "[ORPHANED] abc".toList, some "[ORPHANED] No original text".toList] ∧
    ¬ ∃ m : List Char,
        m ++ "abc".toList = "[ORPHANED] abc".toList ∧
        m ++ ([] : List Char) = "[ORPHANED] No original text".toList := by
  refine ⟨by decide, ?_⟩
  rintro ⟨m, h1, h2⟩
  rw [List.append_nil] at h2
  subst h2
  exact absurd h1 (by decide)

/-- C3 (amended): an Orphaned comment (from cleared) is left completely
unchanged by any synchronizer run on a document in which no text leaf
carries a marker with its id — whatever text that document contains, the
comment is never re-bound; only the reappearance of a marker bearing its id
(see the counterexample) re-binds it. -/
theorem orphaned_not_rebound_without_marker (d : PMDoc) (cs : List InlineComment)
    (i : Nat) (c : InlineComment) (p : CommentPosition)
    (hi : cs[i]? = some c) (hp : c.position = some p) (hf : p.fromPos = none)
    (hm : markRuns d c.id = []) :
    (syncCommentPositionsWithEditorState d cs).1[i]? = some c := by
  rw [sync_getElem?, hi]
  have hscan := markRuns_empty_scanMark hm
  by_cases hid : c.id = ""
  · simp [syncOne, hid]
  · simp [syncOne, hid, hscan, hp, hf]

theorem orphaned_not_rebound_without_marker_witness :
    (syncCommentPositionsWithEditorState
        (.cons (.elem "paragraph" none (.cons (.text "xyz".toList []) .nil)) .nil)
        [{id := "c9", author := "u", text := "t", createdAt := 0,
          resolved := false, type := "offset",
          position := some {textFragment := some "[ORPHANED] xyz".toList,
                            fromPos := none, toPos := none}}]).1[0]? =
      some {id := "c9", author := "u", text := "t", createdAt := 0,
            resolved := false, type := "offset",
            position := some {textFragment := some "[ORPHANED] xyz".toList,
                              fromPos := none, toPos := none}} :=
  orphaned_not_rebound_without_marker _ _ 0 _ _ rfl rfl rfl (by decide)

/-- Document containing a text leaf that carries a CommentMark with id c1
(for the C3 counterexample). -/
def docRemarked : PMDoc :=
  .cons (.elem "paragraph" none
    (.cons (.text "ab".toList [⟨commentMarkName, some "c1"⟩]) .nil)) .nil

/-- Orphaned comment with id c1 (for the C3 counterexample). -/
def cOrphaned : InlineComment :=
  {id := "c1", author := "u", text := "t", createdAt := 0, resolved := false,
   type := "offset",
   position := some {textFragment := some "[ORPHANED] ab".toList,
                     fromPos := none, toPos := none}}

/-- C3 counterexample: a comment that has transitioned to Orphaned
(fromPos = none) is assigned numeric coordinates again by a later
synchronizer run as soon as the document again contains a marker bearing its
id — the rebind branch fires for orphaned comments too, so 'once Orphaned,
never automatically re-bound, whatever the document contains' is false as
stated. -/
theorem sync_rebinds_orphan_counterexample :
    ((syncCommentPositionsWithEditorState docRemarked [cOrphaned]).1.map
        (fun c => c.position.map CommentPosition.fromPos)) = [some (some 1)] ∧
    (some (some 1) : Option (Option Nat)) ≠ some none := by
  refine ⟨by decide, by decide⟩

/-! ## C1 : Offset compute/resolve round trip -/

theorem sizeL_appendPM : ∀ (xs ys : PMList),
    sizeL (appendPM xs ys) = sizeL xs + sizeL ys
  | .nil, ys => by simp [appendPM, sizeL]
  | .cons n ns, ys => by
      simp [appendPM, sizeL, sizeL_appendPM ns ys]
      omega

theorem leavesL_appendPM : ∀ (xs ys : PMList) (pos : Nat),
    leavesL pos (appendPM xs ys) =
      leavesL pos xs ++ leavesL (pos + sizeL xs) ys
  | .nil, ys, pos => by simp [appendPM, leavesL, sizeL]
  | .cons n ns, ys, pos => by
      simp only [appendPM, leavesL, leavesL_appendPM ns ys (pos + sizeN n),
        List.append_assoc, sizeL]
      have h : pos + sizeN n + sizeL ns = pos + (sizeN n + sizeL ns) := by omega
      rw [h]

theorem sizeL_ofList (l : List PMNode) :
    sizeL (ofList l) = (l.map sizeN).sum := by
  induction l with
  | nil => rfl
  | cons n ns ih => simp [ofList, sizeL, ih]

mutual
theorem sizeL_applyN (f t : Nat) (m : CMark) (hft : f < t) :
    ∀ (pos : Nat) (n : PMNode), sizeL (applyN f t m pos n) = sizeN n
  | pos, .text s ms => by
      unfold applyN
      split
      · rename_i hov
        rw [sizeL_ofList]
        have hb : min t (pos + s.length) - pos ≤ s.length := by omega
        have hab : max f pos - pos ≤ min t (pos + s.length) - pos := by omega
        simp only [List.map_append, List.sum_append, sizeN]
        by_cases ha : 0 < max f pos - pos <;>
          by_cases hbl : min t (pos + s.length) - pos < s.length <;>
            simp [ha, hbl, sizeN, List.length_take, List.length_drop] <;> omega
      · simp [sizeL, sizeN]
  | pos, .elem ty lv cs => by
      unfold applyN
      simp [sizeL, sizeN, sizeL_applyL f t m hft (pos + 1) cs]
theorem sizeL_applyL (f t : Nat) (m : CMark) (hft : f < t) :
    ∀ (pos : Nat) (ns : PMList), sizeL (applyL f t m pos ns) = sizeL ns
  | _, .nil => rfl
  | pos, .cons n ns => by
      unfold applyL
      rw [sizeL_appendPM, sizeL_applyN f t m hft pos n,
        sizeL_applyL f t m hft (pos + sizeN n) ns, sizeL]
end

/-- The effect of tr.addMark on one text leaf, at the leaf level: an
overlapped leaf splits into up to three leaves with the middle receiving the
mark; an untouched leaf is returned as is. -/
def clipLeaf (f t : Nat) (m : CMark) (lf : Leaf) : List Leaf :=
  if lf.pos < t ∧ f < lf.pos + lf.txt.length then
    (if 0 < max f lf.pos - lf.pos
      then [⟨lf.pos, lf.txt.take (max f lf.pos - lf.pos), lf.marks⟩] else []) ++
    [⟨lf.pos + (max f lf.pos - lf.pos),
      (lf.txt.drop (max f lf.pos - lf.pos)).take
        ((min t (lf.pos + lf.txt.length) - lf.pos) - (max f lf.pos - lf.pos)),
      addToSet m lf.marks⟩] ++
    (if min t (lf.pos + lf.txt.length) - lf.pos < lf.txt.length
      then [⟨lf.pos + (min t (lf.pos + lf.txt.length) - lf.pos),
            lf.txt.drop (min t (lf.pos + lf.txt.length) - lf.pos), lf.marks⟩] else [])
  else [lf]

mutual
theorem leaves_applyN (f t : Nat) (m : CMark) (hft : f < t) :
    ∀ (pos : Nat) (n : PMNode),
      leavesL pos (applyN f t m pos n) = (leavesN pos n).flatMap (clipLeaf f t m)
  | pos, .text s ms => by
      by_cases hov : pos < t ∧ f < pos + s.length
      · have hab : max f pos - pos ≤ min t (pos + s.length) - pos := by omega
        have hblen : min t (pos + s.length) - pos ≤ s.length := by omega
        have len_take : (s.take (max f pos - pos)).length = max f pos - pos := by
          rw [List.length_take]; omega
        have len_mid : ((s.drop (max f pos - pos)).take
            ((min t (pos + s.length) - pos) - (max f pos - pos))).length =
              (min t (pos + s.length) - pos) - (max f pos - pos) := by
          rw [List.length_take, List.length_drop]; omega
        have hpos3 : pos + (max f pos - pos) +
            ((min t (pos + s.length) - pos) - (max f pos - pos)) =
              pos + (min t (pos + s.length) - pos) := by omega
        unfold applyN leavesN clipLeaf
        simp only [List.flatMap_cons, List.flatMap_nil, List.append_nil, if_pos hov]
        by_cases ha : 0 < max f pos - pos <;>
          by_cases hbl : min t (pos + s.length) - pos < s.length <;>
            simp [ha, hbl, ofList, leavesL, leavesN, sizeN, len_take, len_mid, hpos3] <;>
            omega
      · unfold applyN leavesN clipLeaf
        simp [hov, leavesL, leavesN]
  | pos, .elem ty lv cs => by
      unfold applyN leavesN
      simp only [leavesL, List.append_nil]
      exact leaves_applyL f t m hft (pos + 1) cs
theorem leaves_applyL (f t : Nat) (m : CMark) (hft : f < t) :
    ∀ (pos : Nat) (ns : PMList),
      leavesL pos (applyL f t m pos ns) = (leavesL pos ns).flatMap (clipLeaf f t m)
  | _, .nil => rfl
  | pos, .cons n ns => by
      unfold applyL
      rw [leavesL_appendPM, sizeL_applyN f t m hft pos n,
        leaves_applyN f t m hft pos n, leaves_applyL f t m hft (pos + sizeN n) ns]
      simp [leavesL, List.flatMap_append]
end

/-- The contribution of one text leaf to textBetween (the text-node branch of
Fragment.textBetween, as a state transformer). -/
def tbStep (F T pos : Nat) (s : List Char) (st : List Char × Bool) :
    List Char × Bool :=
  if pos < T ∧ F < pos + s.length then
    (st.1 ++ (s.drop (max F pos - pos)).take (T - pos - (max F pos - pos)), false)
  else st

theorem tbN_text (F T : Nat) (sep : List Char) (pos : Nat) (st : List Char × Bool)
    (s : List Char) (ms : List CMark) :
    tbN F T sep pos st (.text s ms) = tbStep F T pos s st := rfl

theorem tbStep_split (F T : Nat) (hFT : F < T) (s : List Char) (c : Nat)
    (hc0 : 0 < c) (hcl : c < s.length) (pos : Nat) (st : List Char × Bool) :
    tbStep F T (pos + c) (s.drop c) (tbStep F T pos (s.take c) st) =
      tbStep F T pos s st := by
  have lt : (s.take c).length = c := by rw [List.length_take]; omega
  have ld : (s.drop c).length = s.length - c := List.length_drop c s
  unfold tbStep
  rw [lt, ld]
  by_cases hL : pos < T ∧ F < pos + c
  · rw [if_pos hL]
    have hW : pos < T ∧ F < pos + s.length := by omega
    rw [if_pos hW]
    have hac : max F pos - pos < c := by omega
    by_cases hR : pos + c < T ∧ F < pos + c + (s.length - c)
    · rw [if_pos hR]
      dsimp only
      have ha2 : max F (pos + c) - (pos + c) = 0 := by omega
      rw [ha2, List.append_assoc]
      refine congrArg (fun l => (st.1 ++ l, false)) ?_
      rw [List.drop_zero, List.drop_take, List.take_take]
      have hmin : (T - pos - (max F pos - pos)) ⊓ (c - (max F pos - pos)) =
          c - (max F pos - pos) := by omega
      rw [hmin]
      have hdc : s.drop c = (s.drop (max F pos - pos)).drop (c - (max F pos - pos)) := by
        rw [List.drop_drop]
        congr 1
        omega
      rw [hdc, ← List.take_add]
      congr 1
      omega
    · rw [if_neg hR]
      refine congrArg (fun l => (st.1 ++ l, false)) ?_
      rw [List.drop_take, List.take_take]
      congr 1
      omega
  · rw [if_neg hL]
    by_cases hR : pos + c < T ∧ F < pos + c + (s.length - c)
    · have hW : pos < T ∧ F < pos + s.length := by omega
      rw [if_pos hR, if_pos hW]
      refine congrArg (fun l => (st.1 ++ l, false)) ?_
      have hFc : pos + c ≤ F := by omega
      rw [List.drop_drop]
      have harg : c + (max F (pos + c) - (pos + c)) = max F pos - pos := by omega
      rw [harg]
      congr 1
      omega
    · have hW : ¬(pos < T ∧ F < pos + s.length) := by omega
      rw [if_neg hR, if_neg hW]

theorem tbL_appendPM : ∀ (xs ys : PMList) (F T : Nat) (sep : List Char)
    (pos : Nat) (st : List Char × Bool),
    tbL F T sep pos st (appendPM xs ys) =
      tbL F T sep (pos + sizeL xs) (tbL F T sep pos st xs) ys
  | .nil, ys, F, T, sep, pos, st => by simp [appendPM, tbL, sizeL]
  | .cons n ns, ys, F, T, sep, pos, st => by
      simp only [appendPM, tbL, sizeL]
      rw [tbL_appendPM ns ys F T sep (pos + sizeN n) (tbN F T sep pos st n)]
      have h : pos + sizeN n + sizeL ns = pos + (sizeN n + sizeL ns) := by omega
      rw [h]

mutual
theorem tb_applyN (f t : Nat) (m : CMark) (hft : f < t) (F T : Nat) (hFT : F < T)
    (sep : List Char) :
    ∀ (pos : Nat) (st : List Char × Bool) (n : PMNode),
      tbL F T sep pos st (applyN f t m pos n) = tbN F T sep pos st n
  | pos, st, .text s ms => by
      rw [tbN_text]
      unfold applyN
      split
      · rename_i hov
        by_cases hlen : s.length = 0
        · have hs : s = [] := List.eq_nil_of_length_eq_zero hlen
          subst hs
          have hf0 : f < pos := by simpa using hov.2
          have ha : max f pos - pos = 0 := by omega
          have hb : min t (pos + ([] : List Char).length) - pos = 0 := by
            simp
          simp [ha, hb, ofList, tbL, tbN, tbStep]
        · have hlen' : 0 < s.length := Nat.pos_of_ne_zero hlen
          have hab : max f pos - pos < min t (pos + s.length) - pos := by omega
          have hble : min t (pos + s.length) - pos ≤ s.length := by omega
          by_cases hA : 0 < max f pos - pos <;>
            by_cases hB : min t (pos + s.length) - pos < s.length
          · -- front, middle, back
            have len_take : (s.take (max f pos - pos)).length = max f pos - pos := by
              rw [List.length_take]; omega
            have len_mid : ((s.drop (max f pos - pos)).take
                ((min t (pos + s.length) - pos) - (max f pos - pos))).length =
                  (min t (pos + s.length) - pos) - (max f pos - pos) := by
              rw [List.length_take, List.length_drop]; omega
            simp only [hA, hB, if_pos, ofList, tbL, tbN_text, sizeN, len_take,
              len_mid, List.append_nil, List.cons_append, List.nil_append]
            have hdb : s.drop (min t (pos + s.length) - pos) =
                (s.drop (max f pos - pos)).drop
                  ((min t (pos + s.length) - pos) - (max f pos - pos)) := by
              rw [List.drop_drop]
              congr 1
              omega
            rw [hdb]
            have h2 : (min t (pos + s.length) - pos) - (max f pos - pos) <
                (s.drop (max f pos - pos)).length := by
              rw [List.length_drop]; omega
            rw [tbStep_split F T hFT (s.drop (max f pos - pos))
              ((min t (pos + s.length) - pos) - (max f pos - pos)) (by omega) h2
              (pos + (max f pos - pos)) (tbStep F T pos (s.take (max f pos - pos)) st)]
            exact tbStep_split F T hFT s (max f pos - pos) hA (by omega) pos st
          · -- front, middle (= rest of the leaf)
            have len_take : (s.take (max f pos - pos)).length = max f pos - pos := by
              rw [List.length_take]; omega
            have hmid : (min t (pos + s.length) - pos) - (max f pos - pos) =
                (s.drop (max f pos - pos)).length := by
              rw [List.length_drop]; omega
            simp only [hA, hB, if_pos, ofList, tbL, tbN_text, sizeN, len_take,
              List.append_nil, List.cons_append, List.nil_append, hmid,
              List.take_length]
            exact tbStep_split F T hFT s (max f pos - pos) hA (by omega) pos st
          · -- middle, back
            have ha0 : max f pos - pos = 0 := by omega
            have len_tk : (s.take (min t (pos + s.length) - pos)).length =
                min t (pos + s.length) - pos := by
              rw [List.length_take]; omega
            simp only [hA, hB, if_pos, ofList, tbL, tbN_text, sizeN, ha0,
              List.drop_zero, Nat.sub_zero, len_tk, List.append_nil,
              List.cons_append, List.nil_append]
            exact tbStep_split F T hFT s (min t (pos + s.length) - pos)
              (by omega) hB pos st
          · -- middle only (= the whole leaf)
            have ha0 : max f pos - pos = 0 := by omega
            have hmid : min t (pos + s.length) - pos = s.length := by omega
            simp only [hA, hB, if_pos, ofList, tbL, tbN_text, sizeN, ha0,
              List.drop_zero, Nat.sub_zero, hmid, List.take_length,
              lt_self_iff_false, if_false, List.append_nil, List.cons_append,
              List.nil_append]
      · -- leaf untouched by the mark
        rfl
  | pos, st, .elem ty lv cs => by
      unfold applyN
      show tbN F T sep pos st (.elem ty lv (applyL f t m (pos + 1) cs)) = _
      unfold tbN
      rw [sizeL_applyL f t m hft (pos + 1) cs]
      split
      · exact tb_applyL f t m hft F T hFT sep (pos + 1)
          (if st.2 then st else (st.1 ++ sep, true)) cs
      · rfl
theorem tb_applyL (f t : Nat) (m : CMark) (hft : f < t) (F T : Nat) (hFT : F < T)
    (sep : List Char) :
    ∀ (pos : Nat) (st : List Char × Bool) (ns : PMList),
      tbL F T sep pos st (applyL f t m pos ns) = tbL F T sep pos st ns
  | _, _, .nil => rfl
  | pos, st, .cons n ns => by
      unfold applyL
      rw [tbL_appendPM, sizeL_applyN f t m hft pos n,
        tb_applyN f t m hft F T hFT sep pos st n,
        tb_applyL f t m hft F T hFT sep (pos + sizeN n) (tbN F T sep pos st n) ns]
      rfl
end

/-- textBetween is unchanged by applying a mark: marks carry no text and the
split leaves carry the same characters at the same positions. -/
theorem textBetween_applyL (d : PMDoc) (f t : Nat) (m : CMark) (hft : f < t)
    (F T : Nat) (hFT : F < T) (sep : List Char) :
    textBetween (applyL f t m 0 d) F T sep = textBetween d F T sep := by
  unfold textBetween
  rw [tb_applyL f t m hft F T hFT sep 0 ([], true) d]

/-- The runs contributed to the marker scan by one original text leaf after
addMark over [f, t): the clipped overlap, or nothing. -/
def clipRun (f t : Nat) (lf : Leaf) : List (Nat × Nat) :=
  if lf.pos < t ∧ f < lf.pos + lf.txt.length then
    [(max f lf.pos, min t (lf.pos + lf.txt.length))]
  else []

theorem isCommentMarkFor_self (cid : String) (hid : cid ≠ "") :
    isCommentMarkFor cid ⟨commentMarkName, some cid⟩ = true := by
  simp [isCommentMarkFor, hid]


theorem filterMap_clipLeaf (f t : Nat) (cid : String) (hft : f < t)
    (hid : cid ≠ "") (lf : Leaf)
    (hfr : lf.marks.any (isCommentMarkFor cid) = false) :
    (clipLeaf f t ⟨commentMarkName, some cid⟩ lf).filterMap (runOf cid) =
      clipRun f t lf := by
  have hnone : ∀ (p : Nat) (s : List Char),
      runOf cid ⟨p, s, lf.marks⟩ = none := by
    intro p s
    unfold runOf
    rw [hfr]
    rfl
  have hsome : ∀ (p : Nat) (s : List Char),
      runOf cid ⟨p, s, addToSet ⟨commentMarkName, some cid⟩ lf.marks⟩ =
        some (p, p + s.length) := by
    intro p s
    unfold runOf
    have hmid : (addToSet ⟨commentMarkName, some cid⟩ lf.marks).any
        (isCommentMarkFor cid) = true := by
      rw [List.any_eq_true]
      exact ⟨⟨commentMarkName, some cid⟩, by simp [addToSet],
        isCommentMarkFor_self cid hid⟩
    rw [hmid]
    rfl
  unfold clipLeaf clipRun
  split
  · rename_i hov
    have len_mid : ((lf.txt.drop (max f lf.pos - lf.pos)).take
        ((min t (lf.pos + lf.txt.length) - lf.pos) - (max f lf.pos - lf.pos))).length =
          (min t (lf.pos + lf.txt.length) - lf.pos) - (max f lf.pos - lf.pos) := by
      rw [List.length_take, List.length_drop]
      omega
    by_cases hA : 0 < max f lf.pos - lf.pos <;>
      by_cases hB : min t (lf.pos + lf.txt.length) - lf.pos < lf.txt.length <;>
        simp only [hA, hB, if_true, if_false, ite_true, ite_false,
          List.cons_append, List.nil_append, List.append_nil,
          List.filterMap_cons, hnone, hsome, List.filterMap_nil, len_mid] <;>
        rw [List.cons.injEq, Prod.mk.injEq] <;>
        refine ⟨⟨by omega, by omega⟩, rfl⟩
  · rw [List.filterMap_cons, hnone lf.pos lf.txt, List.filterMap_nil]

theorem markRuns_applyList (f t : Nat) (cid : String) (hft : f < t)
    (hid : cid ≠ "") :
    ∀ (ls : List Leaf), (∀ lf ∈ ls, lf.marks.any (isCommentMarkFor cid) = false) →
      (ls.flatMap (clipLeaf f t ⟨commentMarkName, some cid⟩)).filterMap (runOf cid) =
        ls.flatMap (clipRun f t)
  | [], _ => rfl
  | lf :: rest, h => by
      simp only [List.flatMap_cons, List.filterMap_append]
      rw [filterMap_clipLeaf f t cid hft hid lf (h lf (by simp)),
        markRuns_applyList f t cid hft hid rest (fun x hx => h x (by simp [hx]))]

theorem markRuns_apply (d : PMDoc) (f t : Nat) (cid : String) (hft : f < t)
    (hid : cid ≠ "") (hfresh : markRuns d cid = []) :
    markRuns (applyCommentMarkToSelection d f t cid) cid =
      (docLeaves d).flatMap (clipRun f t) := by
  have hfr : ∀ lf ∈ docLeaves d, lf.marks.any (isCommentMarkFor cid) = false := by
    intro lf hlf
    have hnone := List.filterMap_eq_nil_iff.mp hfresh lf hlf
    unfold runOf at hnone
    by_cases hx : lf.marks.any (isCommentMarkFor cid)
    · rw [if_pos hx] at hnone
      cases hnone
    · simpa using hx
  unfold markRuns docLeaves applyCommentMarkToSelection
  rw [leaves_applyL f t ⟨commentMarkName, some cid⟩ hft 0 d]
  exact markRuns_applyList f t cid hft hid (leavesL 0 d) hfr

theorem spanFold_spec :
    ∀ (rest : List (Nat × Nat)) (acc : Nat × Nat),
      (rest.foldl spanStep acc).1 ≤ acc.1 ∧
      acc.2 ≤ (rest.foldl spanStep acc).2 ∧
      (∀ r ∈ rest, (rest.foldl spanStep acc).1 ≤ r.1 ∧
        r.2 ≤ (rest.foldl spanStep acc).2) ∧
      ((rest.foldl spanStep acc).1 = acc.1 ∨
        ∃ r ∈ rest, (rest.foldl spanStep acc).1 = r.1) ∧
      ((rest.foldl spanStep acc).2 = acc.2 ∨
        ∃ r ∈ rest, (rest.foldl spanStep acc).2 = r.2)
  | [], acc => by simp
  | x :: xs, acc => by
      obtain ⟨ih1, ih2, ih3, ih4, ih5⟩ := spanFold_spec xs (spanStep acc x)
      rw [List.foldl_cons]
      have hs1 : (spanStep acc x).1 = min acc.1 x.1 := rfl
      have hs2 : (spanStep acc x).2 = max acc.2 x.2 := rfl
      refine ⟨by omega, by omega, ?_, ?_, ?_⟩
      · intro r hr
        rcases List.mem_cons.mp hr with h | h
        · subst h
          constructor <;> omega
        · exact ih3 r h
      · rcases ih4 with h | ⟨r, hr, h⟩
        · rcases Nat.le_total acc.1 x.1 with hle | hle
          · left
            omega
          · right
            exact ⟨x, List.mem_cons_self x xs, by omega⟩
        · right
          exact ⟨r, List.mem_cons_of_mem x hr, h⟩
      · rcases ih5 with h | ⟨r, hr, h⟩
        · rcases Nat.le_total acc.2 x.2 with hle | hle
          · right
            exact ⟨x, List.mem_cons_self x xs, by omega⟩
          · left
            omega
        · right
          exact ⟨r, List.mem_cons_of_mem x hr, h⟩

theorem coalesce_spec (rs : List (Nat × Nat)) (u v : Nat)
    (h : coalesce rs = some (u, v)) :
    (∀ r ∈ rs, u ≤ r.1 ∧ r.2 ≤ v) ∧ (∃ r ∈ rs, r.1 = u) ∧ (∃ r ∈ rs, r.2 = v) := by
  rcases rs with _ | ⟨r0, rest⟩
  · cases h
  · unfold coalesce at h
    rw [Option.some.injEq] at h
    obtain ⟨h1, h2, h3, h4, h5⟩ := spanFold_spec rest r0
    rw [h] at h1 h2 h3 h4 h5
    refine ⟨?_, ?_, ?_⟩
    · intro r hr
      rcases List.mem_cons.mp hr with hh | hh
      · subst hh
        exact ⟨h1, h2⟩
      · exact h3 r hh
    · rcases h4 with hh | ⟨r, hr, hh⟩
      · exact ⟨r0, List.mem_cons_self r0 rest, hh.symm⟩
      · exact ⟨r, List.mem_cons_of_mem r0 hr, hh.symm⟩
    · rcases h5 with hh | ⟨r, hr, hh⟩
      · exact ⟨r0, List.mem_cons_self r0 rest, hh.symm⟩
      · exact ⟨r, List.mem_cons_of_mem r0 hr, hh.symm⟩

theorem scanMark_apply (d : PMDoc) (f t : Nat) (cid : String)
    (hid : cid ≠ "") (hft : f < t) (hfresh : markRuns d cid = [])
    (hf : ∃ lf ∈ docLeaves d, lf.pos ≤ f ∧ f < lf.pos + lf.txt.length)
    (ht : ∃ lf ∈ docLeaves d, lf.pos < t ∧ t ≤ lf.pos + lf.txt.length) :
    scanMark (applyCommentMarkToSelection d f t cid) cid = some (f, t) := by
  unfold scanMark
  rw [markRuns_apply d f t cid hft hid hfresh]
  obtain ⟨lf1, hlf1, hle1, hlt1⟩ := hf
  obtain ⟨lf2, hlf2, hlt2, hle2⟩ := ht
  have hm1 : (f, min t (lf1.pos + lf1.txt.length)) ∈
      (docLeaves d).flatMap (clipRun f t) := by
    rw [List.mem_flatMap]
    refine ⟨lf1, hlf1, ?_⟩
    unfold clipRun
    rw [if_pos (by omega)]
    have hmax : max f lf1.pos = f := by omega
    rw [hmax]
    exact List.mem_singleton.mpr rfl
  have hm2 : (max f lf2.pos, t) ∈ (docLeaves d).flatMap (clipRun f t) := by
    rw [List.mem_flatMap]
    refine ⟨lf2, hlf2, ?_⟩
    unfold clipRun
    rw [if_pos (by omega)]
    have hmin : min t (lf2.pos + lf2.txt.length) = t := by omega
    rw [hmin]
    exact List.mem_singleton.mpr rfl
  have hbound : ∀ r ∈ (docLeaves d).flatMap (clipRun f t), f ≤ r.1 ∧ r.2 ≤ t := by
    intro r hr
    rw [List.mem_flatMap] at hr
    obtain ⟨lf, _, hr⟩ := hr
    unfold clipRun at hr
    split at hr
    · rw [List.mem_singleton] at hr
      subst hr
      constructor <;> simp
    · cases hr
  rcases hco : coalesce ((docLeaves d).flatMap (clipRun f t)) with _ | ⟨u, v⟩
  · rcases hrs : (docLeaves d).flatMap (clipRun f t) with _ | ⟨r0, rest⟩
    · rw [hrs] at hm1
      cases hm1
    · rw [hrs] at hco
      cases hco
  · obtain ⟨hb, ⟨ru, hru, hru1⟩, ⟨rv, hrv, hrv2⟩⟩ := coalesce_spec _ u v hco
    have hu : u = f := by
      have h1 := (hbound ru hru).1
      have h2 := (hb _ hm1).1
      omega
    have hv : v = t := by
      have h1 := (hbound rv hrv).2
      have h2 := (hb _ hm2).2
      omega
    rw [hu, hv]

/-- The textFragment comparison of the synchronizer after attaching a fresh
marker: the marked document has the same textBetween as the original. -/
theorem textBetween_marked (d : PMDoc) (f t : Nat) (cid : String) (hft : f < t) :
    textBetween (applyCommentMarkToSelection d f t cid) f t " ".toList =
      textBetween d f t " ".toList := by
  unfold applyCommentMarkToSelection
  exact textBetween_applyL d f t ⟨commentMarkName, some cid⟩ hft f t hft " ".toList

/-- C1 (amended): for a selection whose endpoints both lie on text
(lf.pos ≤ from < lf.pos + length for some text leaf, and likewise strictly
inside-or-at-end for to), computing an Offset anchor (storing [from,to) and
textFragment = textBetween) and applying a fresh comment marker over exactly
[from,to), then resolving through the synchronizer's marker scan on the
(marked, otherwise unchanged) document, yields the identical [from,to) and
identical textFragment — the synchronizer reports no change at all.  In
general the scan resolves to the coalesced [min of run starts, max of run
ends) of the marker's runs (third conjunct); when a selection endpoint lies
on a block boundary instead of text, that coalesced range differs from the
stored one (see the counterexample). -/
theorem offset_compute_resolve_roundtrip (d : PMDoc) (f t : Nat) (cid : String)
    (hid : cid ≠ "") (hft : f < t) (hfresh : markRuns d cid = [])
    (hf : ∃ lf ∈ docLeaves d, lf.pos ≤ f ∧ f < lf.pos + lf.txt.length)
    (ht : ∃ lf ∈ docLeaves d, lf.pos < t ∧ t ≤ lf.pos + lf.txt.length) :
    scanMark (applyCommentMarkToSelection d f t cid) cid = some (f, t) ∧
    syncCommentPositionsWithEditorState (applyCommentMarkToSelection d f t cid)
        [mkOffsetComment cid d f t] = ([mkOffsetComment cid d f t], false) ∧
    (∀ (d2 : PMDoc) (id2 : String) (u v : Nat), scanMark d2 id2 = some (u, v) →
      (∀ r ∈ markRuns d2 id2, u ≤ r.1 ∧ r.2 ≤ v) ∧
      (∃ r ∈ markRuns d2 id2, r.1 = u) ∧ (∃ r ∈ markRuns d2 id2, r.2 = v)) := by
  have hscan := scanMark_apply d f t cid hid hft hfresh hf ht
  refine ⟨hscan, ?_, ?_⟩
  · have htb : textBetween (applyCommentMarkToSelection d f t cid) f t [' '] =
        textBetween d f t [' '] := textBetween_marked d f t cid hft
    simp [syncCommentPositionsWithEditorState, syncOne, mkOffsetComment,
      computeOffsetPosition, hscan, hid, htb]
  · intro d2 id2 u v h
    exact coalesce_spec (markRuns d2 id2) u v h

/-- A one-paragraph document (for the C1 witness). -/
def docHello : PMDoc :=
  .cons (.elem "paragraph" none (.cons (.text "hello".toList []) .nil)) .nil

theorem offset_compute_resolve_roundtrip_witness :
    scanMark (applyCommentMarkToSelection docHello 2 4 "c1") "c1" = some (2, 4) ∧
    syncCommentPositionsWithEditorState (applyCommentMarkToSelection docHello 2 4 "c1")
        [mkOffsetComment "c1" docHello 2 4] =
      ([mkOffsetComment "c1" docHello 2 4], false) := by
  have h := offset_compute_resolve_roundtrip docHello 2 4 "c1" (by decide)
    (by decide) rfl (by decide) (by decide)
  exact ⟨h.1, h.2.1⟩

/-- Two paragraphs, the second empty (for the C1 counterexample). -/
def docTwoParas : PMDoc :=
  .cons (.elem "paragraph" none (.cons (.text "ab".toList []) .nil))
    (.cons (.elem "paragraph" none .nil) .nil)

/-- The position stored by compute at [0,6) on docTwoParas. -/
def storedPosTwoParas : CommentPosition :=
  {textFragment := some "ab ".toList, fromPos := some 0, toPos := some 6}

/-- The position the synchronizer resolves to instead. -/
def resolvedPosTwoParas : CommentPosition :=
  {textFragment := some "ab".toList, fromPos := some 1, toPos := some 3}

/-- C1 counterexample: with docTwoParas (content size 6) and the in-bounds
selection [0, 6) — 0 ≤ from < to ≤ docSize — the Offset anchor stores
[0,6) with textFragment 'ab ', but the marker lands only on the text leaf
[1,3), so resolving immediately (document unchanged apart from the marker)
returns [1,3) with textFragment 'ab': neither the range nor the fragment is
identical, refuting the claim's unrestricted quantification over selections. -/
theorem offset_roundtrip_counterexample :
    contentSize docTwoParas = 6 ∧
    (mkOffsetComment "c1" docTwoParas 0 6).position = some storedPosTwoParas ∧
    syncCommentPositionsWithEditorState
        (applyCommentMarkToSelection docTwoParas 0 6 "c1")
        [mkOffsetComment "c1" docTwoParas 0 6] =
      ([{mkOffsetComment "c1" docTwoParas 0 6 with
          position := some resolvedPosTwoParas}], true) ∧
    resolvedPosTwoParas ≠ storedPosTwoParas := by
  refine ⟨rfl, rfl, ?_, by decide⟩
  rfl

/-! ## C4 : deleting a comment -/

/-- The find condition of removeCommentMarkFromDocument:
mark.type.name === CommentMark.name && mark.attrs.commentId === id. -/
def isRemovalTarget (idr : String) (m : CMark) : Bool :=
  m.typeName == commentMarkName && m.commentId == some idr

mutual
/-- Whether some text leaf of the node carries the mark instance looked for
(markRemoved of the source). -/
def hasMarkN (idr : String) : PMNode → Bool
  | .text _ ms => ms.any (isRemovalTarget idr)
  | .elem _ _ cs => hasMarkL idr cs
/-- Whether some text leaf of the sibling list carries the mark instance. -/
def hasMarkL (idr : String) : PMList → Bool
  | .nil => false
  | .cons n ns => hasMarkN idr n || hasMarkL idr ns
end

mutual
/-- The transaction built by removeCommentMarkFromDocument: on every text
leaf whose marks contain the target instance, tr.removeMark(pos,
pos + nodeSize, commentMarkType) removes all marks of the CommentMark type
from that leaf. -/
def stripN (idr : String) : PMNode → PMNode
  | .text s ms =>
      if ms.any (isRemovalTarget idr) then
        .text s (ms.filter (fun m => !(m.typeName == commentMarkName)))
      else .text s ms
  | .elem ty lv cs => .elem ty lv (stripL idr cs)
/-- stripN over a sibling list. -/
def stripL (idr : String) : PMList → PMList
  | .nil => .nil
  | .cons n ns => .cons (stripN idr n) (stripL idr ns)
end

/-- removeCommentMarkFromDocument: the transaction is dispatched only when a
matching mark instance was found; returns (markRemoved, document after). -/
def removeCommentMarkFromDocument (d : PMDoc) (idr : String) : Bool × PMDoc :=
  (hasMarkL idr d, if hasMarkL idr d then stripL idr d else d)

/-- The store side of handleDeleteComment:
prevComments.filter(comment => comment.id !== commentIdToDelete). -/
def handleDeleteCommentStore (cs : List InlineComment) (idr : String) :
    List InlineComment :=
  cs.filter (fun c => c.id ≠ idr)

/-- The effect of the removal transaction on one leaf. -/
def stripLeaf (idr : String) (lf : Leaf) : Leaf :=
  if lf.marks.any (isRemovalTarget idr) then
    ⟨lf.pos, lf.txt, lf.marks.filter (fun m => !(m.typeName == commentMarkName))⟩
  else lf

mutual
theorem sizeN_stripN (idr : String) : ∀ (n : PMNode), sizeN (stripN idr n) = sizeN n
  | .text s ms => by
      unfold stripN
      split <;> rfl
  | .elem ty lv cs => by
      unfold stripN
      simp only [sizeN, sizeL_stripL idr cs]
theorem sizeL_stripL (idr : String) : ∀ (ns : PMList), sizeL (stripL idr ns) = sizeL ns
  | .nil => rfl
  | .cons n ns => by
      unfold stripL
      simp only [sizeL, sizeN_stripN idr n, sizeL_stripL idr ns]
end

mutual
theorem leaves_stripN (idr : String) : ∀ (pos : Nat) (n : PMNode),
    leavesN pos (stripN idr n) = (leavesN pos n).map (stripLeaf idr)
  | pos, .text s ms => by
      unfold stripN stripLeaf
      split <;> rename_i h <;>
        simp only [leavesN, List.map_cons, List.map_nil]
      · rw [if_pos h]
      · rw [if_neg h]
  | pos, .elem ty lv cs => by
      unfold stripN
      simp only [leavesN]
      exact leaves_stripL idr (pos + 1) cs
theorem leaves_stripL (idr : String) : ∀ (pos : Nat) (ns : PMList),
    leavesL pos (stripL idr ns) = (leavesL pos ns).map (stripLeaf idr)
  | _, .nil => rfl
  | pos, .cons n ns => by
      unfold stripL
      simp only [leavesL, List.map_append]
      rw [sizeN_stripN idr n, leaves_stripN idr pos n,
        leaves_stripL idr (pos + sizeN n) ns]
end

mutual
theorem hasMarkN_leaves (idr : String) : ∀ (pos : Nat) (n : PMNode),
    hasMarkN idr n = (leavesN pos n).any (fun lf => lf.marks.any (isRemovalTarget idr))
  | pos, .text s ms => by simp [hasMarkN, leavesN]
  | pos, .elem ty lv cs => by
      simp only [hasMarkN, leavesN]
      exact hasMarkL_leaves idr (pos + 1) cs
theorem hasMarkL_leaves (idr : String) : ∀ (pos : Nat) (ns : PMList),
    hasMarkL idr ns = (leavesL pos ns).any (fun lf => lf.marks.any (isRemovalTarget idr))
  | _, .nil => rfl
  | pos, .cons n ns => by
      simp only [hasMarkL, leavesL, List.any_append]
      rw [hasMarkN_leaves idr pos n, hasMarkL_leaves idr (pos + sizeN n) ns]
end

theorem isCommentMarkFor_isRemovalTarget (id : String) (m : CMark)
    (h : isCommentMarkFor id m = true) : isRemovalTarget id m = true := by
  unfold isCommentMarkFor at h
  unfold isRemovalTarget
  simp only [Bool.and_eq_true] at h ⊢
  exact ⟨h.1.1, h.1.2⟩

theorem runOf_stripLeaf_self (idr : String) (lf : Leaf) :
    runOf idr (stripLeaf idr lf) = none := by
  unfold stripLeaf
  split
  · rename_i h
    unfold runOf
    have hfalse : (lf.marks.filter (fun m => !(m.typeName == commentMarkName))).any
        (isCommentMarkFor idr) = false := by
      rw [List.any_eq_false]
      intro m hm hc
      have hmem := (List.mem_filter.mp hm).2
      have := isCommentMarkFor_isRemovalTarget idr m hc
      unfold isRemovalTarget at this
      simp only [Bool.and_eq_true] at this
      simp [this.1] at hmem
    rw [hfalse]
    rfl
  · rename_i h
    unfold runOf
    have hfalse : lf.marks.any (isCommentMarkFor idr) = false := by
      rw [List.any_eq_false]
      intro m hm hc
      exact h (List.any_eq_true.mpr ⟨m, hm, isCommentMarkFor_isRemovalTarget idr m hc⟩)
    rw [hfalse]
    rfl

theorem two_mem_le_length {α : Type} : ∀ (l : List α) (a b : α),
    a ∈ l → b ∈ l → a ≠ b → 2 ≤ l.length
  | [], a, _, ha, _, _ => absurd ha (List.not_mem_nil a)
  | x :: xs, a, b, ha, hb, hne => by
      simp only [List.length_cons]
      by_cases hax : a = x
      · have hbx : b ∈ xs := by
          rcases List.mem_cons.mp hb with h2 | h2
          · exact absurd (hax.trans h2.symm) hne
          · exact h2
        have := List.length_pos_of_mem hbx
        omega
      · have ha' : a ∈ xs := by
          rcases List.mem_cons.mp ha with h1 | h1
          · exact absurd h1 hax
          · exact h1
        by_cases hbx : b = x
        · have := List.length_pos_of_mem ha'
          omega
        · have hb' : b ∈ xs := by
            rcases List.mem_cons.mp hb with h2 | h2
            · exact absurd h2 hbx
            · exact h2
          have := two_mem_le_length xs a b ha' hb' hne
          omega

theorem runOf_stripLeaf_other (idr id2 : String) (hne : id2 ≠ idr) (lf : Leaf)
    (hleaf : (lf.marks.filter (fun m => m.typeName == commentMarkName)).length ≤ 1) :
    runOf id2 (stripLeaf idr lf) = runOf id2 lf := by
  unfold stripLeaf
  split
  · rename_i h
    obtain ⟨m1, hm1, hm1t⟩ := List.any_eq_true.mp h
    unfold isRemovalTarget at hm1t
    simp only [Bool.and_eq_true, beq_iff_eq] at hm1t
    unfold runOf
    have hafter : (lf.marks.filter (fun m => !(m.typeName == commentMarkName))).any
        (isCommentMarkFor id2) = false := by
      rw [List.any_eq_false]
      intro m hm hc
      have h2 := (List.mem_filter.mp hm).2
      have h3 := isCommentMarkFor_isRemovalTarget id2 m hc
      unfold isRemovalTarget at h3
      simp only [Bool.and_eq_true, beq_iff_eq] at h3
      simp [h3.1] at h2
    have hbefore : lf.marks.any (isCommentMarkFor id2) = false := by
      rw [List.any_eq_false]
      intro m2 hm2 hc2
      have h3 := isCommentMarkFor_isRemovalTarget id2 m2 hc2
      unfold isRemovalTarget at h3
      simp only [Bool.and_eq_true, beq_iff_eq] at h3
      have hne12 : m1 ≠ m2 := by
        intro he
        rw [he] at hm1t
        rw [hm1t.2] at h3
        exact hne (Option.some.inj h3.2).symm
      have hmem1 : m1 ∈ lf.marks.filter (fun m => m.typeName == commentMarkName) :=
        List.mem_filter.mpr ⟨hm1, by simp [hm1t.1]⟩
      have hmem2 : m2 ∈ lf.marks.filter (fun m => m.typeName == commentMarkName) :=
        List.mem_filter.mpr ⟨hm2, by simp [h3.1]⟩
      have := two_mem_le_length _ m1 m2 hmem1 hmem2 hne12
      omega
    rw [hafter, hbefore]
  · rfl

theorem markRuns_remove_self (d : PMDoc) (idr : String) :
    markRuns (removeCommentMarkFromDocument d idr).2 idr = [] := by
  unfold removeCommentMarkFromDocument
  dsimp only
  split
  · unfold markRuns docLeaves
    rw [leaves_stripL idr 0 d, List.filterMap_map]
    rw [List.filterMap_eq_nil_iff]
    intro lf _
    exact runOf_stripLeaf_self idr lf
  · rename_i h
    rw [hasMarkL_leaves idr 0 d] at h
    unfold markRuns docLeaves
    rw [List.filterMap_eq_nil_iff]
    intro lf hlf
    unfold runOf
    have hfalse : lf.marks.any (isCommentMarkFor idr) = false := by
      rw [List.any_eq_false]
      intro m hm hc
      apply h
      rw [List.any_eq_true]
      exact ⟨lf, hlf, List.any_eq_true.mpr
        ⟨m, hm, isCommentMarkFor_isRemovalTarget idr m hc⟩⟩
    rw [hfalse]
    rfl

theorem markRuns_remove_other (d : PMDoc) (idr id2 : String) (hne : id2 ≠ idr)
    (hleaf : ∀ lf ∈ docLeaves d,
      (lf.marks.filter (fun m => m.typeName == commentMarkName)).length ≤ 1) :
    markRuns (removeCommentMarkFromDocument d idr).2 id2 = markRuns d id2 := by
  unfold removeCommentMarkFromDocument
  dsimp only
  split
  · unfold markRuns docLeaves
    rw [leaves_stripL idr 0 d, List.filterMap_map]
    exact List.filterMap_congr
      (fun lf hlf => runOf_stripLeaf_other idr id2 hne lf (hleaf lf hlf))
  · rfl

theorem leaves_remove_postxt (d : PMDoc) (idr : String) :
    (docLeaves (removeCommentMarkFromDocument d idr).2).map (fun lf => (lf.pos, lf.txt)) =
      (docLeaves d).map (fun lf => (lf.pos, lf.txt)) := by
  unfold removeCommentMarkFromDocument
  dsimp only
  split
  · unfold docLeaves
    rw [leaves_stripL idr 0 d, List.map_map]
    refine List.map_congr_left (fun lf _ => ?_)
    simp only [Function.comp_apply]
    unfold stripLeaf
    split <;> rfl
  · rfl

/-- C4: deleting one comment.  Document side (under the ProseMirror invariant
that a text leaf carries at most one CommentMark — the mark type is exclusive
with itself): after removeCommentMarkFromDocument, no text leaf carries a
marker with the deleted id, every other id's marker runs are exactly as
before, and the leaf text and positions are unchanged.  Store side: with
unique ids, handleDeleteComment's filter removes exactly the one record with
the deleted id and leaves every other record, in order. -/
theorem delete_comment_frame (d : PMDoc) (idr : String) (cs : List InlineComment)
    (l1 l2 : List InlineComment) (c : InlineComment)
    (hleaf : ∀ lf ∈ docLeaves d,
      (lf.marks.filter (fun m => m.typeName == commentMarkName)).length ≤ 1)
    (hcs : cs = l1 ++ c :: l2) (hcid : c.id = idr)
    (hothers : ∀ x ∈ l1 ++ l2, x.id ≠ idr) :
    markRuns (removeCommentMarkFromDocument d idr).2 idr = [] ∧
    (∀ id2, id2 ≠ idr →
      markRuns (removeCommentMarkFromDocument d idr).2 id2 = markRuns d id2) ∧
    (docLeaves (removeCommentMarkFromDocument d idr).2).map (fun lf => (lf.pos, lf.txt)) =
      (docLeaves d).map (fun lf => (lf.pos, lf.txt)) ∧
    handleDeleteCommentStore cs idr = l1 ++ l2 := by
  refine ⟨markRuns_remove_self d idr,
    fun id2 hne => markRuns_remove_other d idr id2 hne hleaf,
    leaves_remove_postxt d idr, ?_⟩
  subst hcs
  unfold handleDeleteCommentStore
  rw [List.filter_append, List.filter_cons_of_neg (by simp [hcid])]
  rw [List.filter_eq_self.mpr, List.filter_eq_self.mpr]
  · intro x hx
    simpa using hothers x (List.mem_append_right l1 hx)
  · intro x hx
    simpa using hothers x (List.mem_append_left l2 hx)

/-- Document with two marked leaves (for the C4 witness). -/
def docTwoMarks : PMDoc :=
  .cons (.elem "paragraph" none
    (.cons (.text "ab".toList [⟨commentMarkName, some "c1"⟩])
      (.cons (.text "cd".toList [⟨commentMarkName, some "c2"⟩]) .nil))) .nil

/-- Second comment in the store (for the C4 witness). -/
def cStoreC2 : InlineComment :=
  {id := "c2", author := "u", text := "t", createdAt := 0, resolved := false,
   type := "offset",
   position := some {textFragment := some "cd".toList, fromPos := some 3, toPos := some 5}}

/-- First comment in the store, to be deleted (for the C4 witness). -/
def cStoreC1 : InlineComment :=
  {id := "c1", author := "u", text := "t", createdAt := 0, resolved := false,
   type := "offset",
   position := some {textFragment := some "ab".toList, fromPos := some 1, toPos := some 3}}

theorem delete_comment_frame_witness :
    markRuns (removeCommentMarkFromDocument docTwoMarks "c1").2 "c1" = [] ∧
    markRuns (removeCommentMarkFromDocument docTwoMarks "c1").2 "c2" =
      markRuns docTwoMarks "c2" ∧
    (docLeaves (removeCommentMarkFromDocument docTwoMarks "c1").2).map
        (fun lf => (lf.pos, lf.txt)) =
      (docLeaves docTwoMarks).map (fun lf => (lf.pos, lf.txt)) ∧
    handleDeleteCommentStore [cStoreC1, cStoreC2] "c1" = [cStoreC2] := by
  have h := delete_comment_frame docTwoMarks "c1" [cStoreC1, cStoreC2] []
    [cStoreC2] cStoreC1 (by decide) rfl rfl (by decide)
  exact ⟨h.1, h.2.1 "c2" (by decide), h.2.2.1, h.2.2.2⟩

/-! ## C7 / C8 : NodePath restoration -/

/-- NodePathPosition (path, startOffset, endOffset, optional textFragment). -/
structure NodePathPosition where
  path : List Char
  startOffset : Nat
  endOffset : Nat
  textFragment : Option (List Char)
deriving DecidableEq

/-- path.split(' > '). -/
def splitSegs : List Char → List (List Char)
  | ' ' :: '>' :: ' ' :: rest => [] :: splitSegs rest
  | c :: rest =>
      match splitSegs rest with
      | s :: ss => (c :: s) :: ss
      | [] => [[c]]
  | [] => [[]]

/-- The character class [a-zA-Z0-9_-] of the segment regex. -/
def isTagChar (c : Char) : Bool := c.isAlpha || c.isDigit || c == '_' || c == '-'

/-- The segment regex of restoreMarkFromNodePath exactly as written in the
source — a regex literal containing double-escaped metacharacters:
/^([a-zA-Z0-9_-]+):nth-child\\((\\d+)\\)$/ .  In a regex literal `\\(` is an
escaped backslash followed by a group opening, and `\\d+` is an escaped
backslash followed by one or more literal 'd', so the pattern matches
`tag:nth-child` + backslash + (backslash + 'd'+ + backslash), and the second
capture (childIndexStr) is backslash 'd'..'d' backslash.  In particular no
segment of the intended form tag:nth-child(N) matches. -/
def segmentMatch (seg : List Char) : Option (List Char × List Char) :=
  if (seg.takeWhile isTagChar).isEmpty then none
  else if (seg.dropWhile isTagChar).take 12 = ":nth-child".toList ++ ['\\', '\\'] then
    if (((seg.dropWhile isTagChar).drop 12).takeWhile (fun c => c == 'd')).isEmpty then
      none
    else if ((seg.dropWhile isTagChar).drop 12).dropWhile (fun c => c == 'd') =
        ['\\'] then
      some (seg.takeWhile isTagChar,
        '\\' :: ((((seg.dropWhile isTagChar).drop 12).takeWhile (fun c => c == 'd')) ++
          ['\\']))
    else none
  else none

/-- Digit-fold of JS parseInt. -/
def digitsVal (ds : List Char) : Int :=
  ds.foldl (fun acc c => acc * 10 + ((c.toNat : Int) - 48)) 0

/-- JS parseInt(s, 10): skip leading whitespace, optional sign, then a
non-empty run of digits; otherwise NaN (modelled as none). -/
def parseIntJS (s : List Char) : Option Int :=
  match s.dropWhile (fun c => c == ' ' || c == '\t' || c == '\n' || c == '\r') with
  | '-' :: r =>
      if (r.takeWhile Char.isDigit).isEmpty then none
      else some (-(digitsVal (r.takeWhile Char.isDigit)))
  | '+' :: r =>
      if (r.takeWhile Char.isDigit).isEmpty then none
      else some (digitsVal (r.takeWhile Char.isDigit))
  | r =>
      if (r.takeWhile Char.isDigit).isEmpty then none
      else some (digitsVal (r.takeWhile Char.isDigit))

/-- node.childCount. -/
def childCount : PMList → Nat
  | .nil => 0
  | .cons _ ns => childCount ns + 1

/-- node.child(i). -/
def childAt : PMList → Nat → Option PMNode
  | .nil, _ => none
  | .cons n _, 0 => some n
  | .cons _ ns, k + 1 => childAt ns k

/-- Sum of the sizes of the first k children (the sibling-skipping loop of
restoreMarkFromNodePath). -/
def sizePrefix : PMList → Nat → Nat
  | _, 0 => 0
  | .nil, _ + 1 => 0
  | .cons n ns, k + 1 => sizeN n + sizePrefix ns k

/-- The content of a node (text nodes have no children). -/
def childrenOf : PMNode → PMList
  | .text _ _ => .nil
  | .elem _ _ cs => cs

/-- The for-loop of restoreMarkFromNodePath over the path segments.  A
non-matching segment returns false; a matching segment yields a
childIndexStr starting with a backslash, so parseInt gives NaN: both range
checks compare against NaN and pass, the sibling loop runs zero times, and
currentNode.child(NaN) throws, caught by the surrounding try — modelled as
none. -/
def restoreDescend : List (List Char) → Bool → PMNode → Nat → Option (PMNode × Nat)
  | [], _, n, pos => some (n, pos)
  | seg :: rest, isDoc, n, pos =>
      match segmentMatch seg with
      | none => none
      | some (_, cap) =>
          match parseIntJS cap with
          | none => none
          | some k =>
              let childIndex : Int := k - 1
              let kids := childrenOf n
              if childIndex < 0 ∨ (childCount kids : Int) ≤ childIndex then none
              else
                match childAt kids childIndex.toNat with
                | none => none
                | some c =>
                    restoreDescend rest false c
                      (pos + (if isDoc then 0 else 1) + sizePrefix kids childIndex.toNat)

/-- restoreMarkFromNodePath.  The empty path means the whole document:
apply the mark over [0, doc.content.size) when the content is non-empty,
fail otherwise.  A non-empty path is split on ' > ' and descended; on
success the mark covers the found node's [start, start + nodeSize), after
bounds checks against doc.content.size. -/
def restoreMarkFromNodePath (d : PMDoc) (cid : String)
    (position : Option NodePathPosition) (markName : String) : Bool × PMDoc :=
  match position with
  | none => (false, d)
  | some p =>
      if p.path = [] then
        if 0 < contentSize d ∧ 0 < contentSize d then
          (true, applyL 0 (contentSize d) ⟨markName, some cid⟩ 0 d)
        else (false, d)
      else
        match restoreDescend (splitSegs p.path) true (.elem "doc" none d) 0 with
        | none => (false, d)
        | some (n, pos) =>
            if pos > contentSize d ∨ pos + sizeN n > contentSize d ∨
                pos + sizeN n ≤ pos then (false, d)
            else (true, applyL pos (pos + sizeN n) ⟨markName, some cid⟩ 0 d)

/-- The segment template of calculateNodePathForProseMirrorSelection:
`${tagName}:nth-child(${indexInParent + 1})`. -/
def mkNthChildSegment (tag : List Char) (n : Nat) : List Char :=
  tag ++ ":nth-child(".toList ++ Nat.toDigits 10 n ++ [')']

/-- C7: with the whole-document sentinel (empty path), restoration applies
the comment mark over [0, doc.content.size) and reports success whenever the
content is non-empty, and applies nothing and reports failure on an empty
document. -/
theorem restore_empty_path (d : PMDoc) (cid markName : String)
    (p : NodePathPosition) (hp : p.path = []) :
    (0 < contentSize d →
      restoreMarkFromNodePath d cid (some p) markName =
        (true, applyL 0 (contentSize d) ⟨markName, some cid⟩ 0 d)) ∧
    (contentSize d = 0 →
      restoreMarkFromNodePath d cid (some p) markName = (false, d)) := by
  constructor <;> intro h <;> unfold restoreMarkFromNodePath <;> dsimp only <;>
    rw [if_pos hp]
  · rw [if_pos ⟨h, h⟩]
  · rw [if_neg (by omega)]

theorem restore_empty_path_witness :
    restoreMarkFromNodePath docHello "c1" (some ⟨[], 0, 7, none⟩) commentMarkName =
      (true, applyL 0 (contentSize docHello) ⟨commentMarkName, some "c1"⟩ 0 docHello) ∧
    restoreMarkFromNodePath PMList.nil "c1" (some ⟨[], 0, 0, none⟩) commentMarkName =
      (false, PMList.nil) :=
  ⟨(restore_empty_path docHello "c1" commentMarkName ⟨[], 0, 7, none⟩ rfl).1
      (by decide),
    (restore_empty_path PMList.nil "c1" commentMarkName ⟨[], 0, 0, none⟩ rfl).2 rfl⟩

theorem parseIntJS_backslash (r : List Char) : parseIntJS ('\\' :: r) = none := rfl

theorem segmentMatch_capture (seg tag cap : List Char)
    (h : segmentMatch seg = some (tag, cap)) : ∃ r, cap = '\\' :: r := by
  unfold segmentMatch at h
  split at h
  · cases h
  · split at h
    · split at h
      · cases h
      · split at h
        · rw [Option.some.injEq, Prod.mk.injEq] at h
          exact ⟨_, h.2.symm⟩
        · cases h
    · cases h

theorem restoreDescend_cons_none (seg : List Char) (rest : List (List Char))
    (isDoc : Bool) (n : PMNode) (pos : Nat) :
    restoreDescend (seg :: rest) isDoc n pos = none := by
  unfold restoreDescend
  rcases hm : segmentMatch seg with _ | ⟨tag, cap⟩
  · rfl
  · obtain ⟨r, hr⟩ := segmentMatch_capture seg tag cap hm
    subst hr
    dsimp only
    rw [parseIntJS_backslash]

/-- Every non-empty path fails restoration: the double-escaped regex never
matches a segment of the form produced by the compute side, and even its
bizarre actual language yields childIndexStr values on which parseInt is NaN,
so node.child throws.  The document is returned unchanged. -/
theorem restore_nonempty_path_fails (d : PMDoc) (cid : String)
    (p : NodePathPosition) (markName : String) (hp : p.path ≠ []) :
    restoreMarkFromNodePath d cid (some p) markName = (false, d) := by
  unfold restoreMarkFromNodePath
  dsimp only
  rw [if_neg hp]
  rcases hs : splitSegs p.path with _ | ⟨s0, rest⟩
  · unfold restoreDescend
    dsimp only
    have hcond : (0 : Nat) > contentSize d ∨
        0 + sizeN (PMNode.elem "doc" none d) > contentSize d ∨
        0 + sizeN (PMNode.elem "doc" none d) ≤ 0 := by
      have hsz : sizeN (PMNode.elem "doc" none d) = 2 + sizeL d := rfl
      unfold contentSize
      omega
    rw [if_pos hcond]
  · rw [restoreDescend_cons_none]

/-- C8 (code bug): the compute side writes path segments with the template
tag:nth-child(N) (mkNthChildSegment), but the restore side's regex — written
with string-style double escapes inside a regex literal — does not match that
form at all (segmentMatch of 'p:nth-child(1)' is none), so restoration fails
(returns false, document unchanged) for a comment whose path is exactly what
compute produced, while the claim (and the spec) says only segments NOT of
this form are malformed and that well-formed ones are descended
structurally.  The whole-document empty path, which bypasses the regex,
still restores fine. -/
theorem nodePath_restore_regex_bug :
    mkNthChildSegment "p".toList 1 = "p:nth-child(1)".toList ∧
    segmentMatch "p:nth-child(1)".toList = none ∧
    restoreMarkFromNodePath docHello "c1"
        (some ⟨"p:nth-child(1)".toList, 0, 7, some "hello".toList⟩) commentMarkName =
      (false, docHello) ∧
    restoreMarkFromNodePath docHello "c1" (some ⟨[], 0, 7, none⟩) commentMarkName =
      (true, applyL 0 (contentSize docHello) ⟨commentMarkName, some "c1"⟩ 0 docHello) := by
  refine ⟨by decide, rfl, rfl, rfl⟩

/-! ## C9 : loading persisted comments (two loadCommentsFromStorage variants) -/

/-- A parsed JSON value (JSON.parse output: no undefined). -/
inductive JValue : Type where
  | str (s : List Char)
  | num (n : Int)
  | jbool (b : Bool)
  | jnull
  | arr (elems : List JValue)
  | obj (fields : List (List Char × JValue))

/-- Property access obj[key]: absent keys (and access on non-objects other
than null) give undefined, modelled as none.  Arrays have no named fields. -/
def getField : JValue → List Char → Option JValue
  | .obj fs, k => (fs.find? (fun kv => kv.1 == k)).map (fun kv => kv.2)
  | _, _ => none

/-- JS truthiness of a JSON value. -/
def truthy : JValue → Bool
  | .str s => !s.isEmpty
  | .num n => n != 0
  | .jbool b => b
  | .jnull => false
  | .arr _ => true
  | .obj _ => true

/-- new Date(x): a string or a number is kept as such; null coerces to 0,
booleans to 0/1; anything else (including undefined) is Invalid Date. -/
inductive JDate : Type where
  | ofString (s : List Char)
  | ofNum (n : Int)
  | invalid
deriving DecidableEq

/-- new Date applied to a possibly-undefined field value. -/
def mkDate : Option JValue → JDate
  | some (.str s) => .ofString s
  | some (.num n) => .ofNum n
  | some .jnull => .ofNum 0
  | some (.jbool b) => .ofNum (if b then 1 else 0)
  | _ => .invalid

/-- The position object built by the loaders (each sub-field is whatever the
property access returned, possibly undefined). -/
structure LoadedPosition where
  fromF : Option JValue
  toF : Option JValue
  textFragmentF : Option JValue
  pathF : Option JValue
  startOffsetF : Option JValue
  endOffsetF : Option JValue

/-- The record object a loader returns for one stored entry (the `as
InlineComment` cast in the source does not change the runtime values, which
may be undefined for the non-validating loader). -/
structure LoadedComment where
  idF : Option JValue
  authorF : Option JValue
  textF : Option JValue
  createdAtF : JDate
  positionF : Option LoadedPosition

/-- field access is a string. -/
def isStr : Option JValue → Bool
  | some (.str _) => true
  | _ => false

/-- field access is a string or a number. -/
def isStrOrNum : Option JValue → Bool
  | some (.str _) => true
  | some (.num _) => true
  | _ => false

/-- field, when present, is a number. -/
def optNum : Option JValue → Bool
  | none => true
  | some (.num _) => true
  | _ => false

/-- field, when present, is a string. -/
def optStr : Option JValue → Bool
  | none => true
  | some (.str _) => true
  | _ => false

/-- The structural validation of the part_001 loadCommentsFromStorage:
typeof object and non-null, string id/author/text, string-or-number
createdAt, and — when a position field exists — an object/non-null position
whose from/to/startOffset/endOffset are numbers and textFragment/path are
strings when present. -/
def validCommentData (e : JValue) : Bool :=
  match e with
  | .obj _ | .arr _ =>
      isStr (getField e "id".toList) && isStr (getField e "author".toList) &&
      isStr (getField e "text".toList) && isStrOrNum (getField e "createdAt".toList) &&
      (match getField e "position".toList with
        | none => true
        | some p =>
            match p with
            | .obj _ | .arr _ =>
                optNum (getField p "from".toList) && optNum (getField p "to".toList) &&
                optStr (getField p "textFragment".toList) &&
                optStr (getField p "path".toList) &&
                optNum (getField p "startOffset".toList) &&
                optNum (getField p "endOffset".toList)
            | _ => false)
  | _ => false

/-- The record-building step shared by both loaders: copy id/author/text,
convert createdAt through new Date, and copy the position sub-fields when
the position field is truthy. -/
def buildLoaded (e : JValue) : LoadedComment :=
  { idF := getField e "id".toList
    authorF := getField e "author".toList
    textF := getField e "text".toList
    createdAtF := mkDate (getField e "createdAt".toList)
    positionF :=
      match getField e "position".toList with
      | some p =>
          if truthy p then
            some { fromF := getField p "from".toList
                   toF := getField p "to".toList
                   textFragmentF := getField p "textFragment".toList
                   pathF := getField p "path".toList
                   startOffsetF := getField p "startOffset".toList
                   endOffsetF := getField p "endOffset".toList }
          else none
      | none => none }

/-- The part_001 loadCommentsFromStorage applied to the parsed JSON value: a
non-array gives []; an array maps each entry to its record when it passes
validation and to null otherwise, then filters the nulls out. -/
def loadCommentsFromStorage (v : JValue) : List LoadedComment :=
  match v with
  | .arr xs => (xs.map (fun e => if validCommentData e then some (buildLoaded e)
      else none)).filterMap id
  | _ => []

/-- One map step of the part_000 loadCommentsFromStorage: `typeof
commentData === 'object'` is true for objects, arrays AND null; a null entry
then throws on property access (error), any other object-typed entry is
returned unvalidated, and primitives are warned about and mapped to null
(dropped). -/
def loadCommentsStepAlt (e : JValue) : Except Unit (Option LoadedComment) :=
  match e with
  | .jnull => .error ()
  | .obj _ | .arr _ => .ok (some (buildLoaded e))
  | _ => .ok none

/-- The .map over the stored array for the part_000 loader, with exception
propagation: a throw anywhere aborts the whole map. -/
def loadAuxAlt : List JValue → Except Unit (List LoadedComment)
  | [] => .ok []
  | e :: rest =>
      match loadCommentsStepAlt e with
      | .error u => .error u
      | .ok r =>
          match loadAuxAlt rest with
          | .error u => .error u
          | .ok rs => .ok (match r with | some x => x :: rs | none => rs)

/-- The part_000 loadCommentsFromStorage: like the other loader but with the
degenerate validation; the surrounding try/catch turns a thrown property
access into [] for the whole batch. -/
def loadCommentsFromStorageAlt (v : JValue) : List LoadedComment :=
  match v with
  | .arr xs =>
      match loadAuxAlt xs with
      | .ok rs => rs
      | .error _ => []
  | _ => []

/-- A structurally valid stored record (for the C9 theorems). -/
def vRec : JValue :=
  .obj [("id".toList, .str "a".toList), ("author".toList, .str "u".toList),
        ("text".toList, .str "t".toList), ("createdAt".toList, .num 0)]

theorem loadMap_filter :
    ∀ xs : List JValue,
      ((xs.map (fun e => if validCommentData e then some (buildLoaded e)
        else none)).filterMap id) = (xs.filter validCommentData).map buildLoaded
  | [] => rfl
  | e :: rest => by
      simp only [List.map_cons, List.filterMap_cons, List.filter_cons]
      by_cases h : validCommentData e <;>
        simp [h, loadMap_filter rest]

/-- C9 (amended): the part_001 loader drops exactly the records failing its
structural validation and returns the valid ones, silently and in order
(first conjunct); but the duplicate part_000 loader has no such validation —
it keeps a record that fails validation (an empty object, second and fifth
facts), and a null array element makes its property access throw so the
whole batch load returns [], losing the valid records in the same batch
(third and fourth facts). -/
theorem loadComments_validation :
    (∀ xs : List JValue, loadCommentsFromStorage (.arr xs) =
      (xs.filter validCommentData).map buildLoaded) ∧
    loadCommentsFromStorageAlt (.arr [.obj []]) = [buildLoaded (.obj [])] ∧
    validCommentData (.obj []) = false ∧
    loadCommentsFromStorageAlt (.arr [.jnull, vRec]) = [] ∧
    loadCommentsFromStorageAlt (.arr [vRec]) = [buildLoaded vRec] :=
  ⟨fun xs => loadMap_filter xs, rfl, rfl, rfl, rfl⟩

/-- C9 counterexample: for the part_000 loadCommentsFromStorage a malformed
record does abort the batch and invalid records are not dropped — loading
[null, validRecord] yields [] although loading [validRecord] alone yields
the record, so the valid record of the batch is lost; and loading an empty
object (which fails structural validation) returns it instead of dropping
it. -/
theorem loadComments_counterexample :
    loadCommentsFromStorageAlt (.arr [.jnull, vRec]) = [] ∧
    loadCommentsFromStorageAlt (.arr [vRec]) = [buildLoaded vRec] ∧
    ([] : List LoadedComment) ≠ [buildLoaded vRec] ∧
    loadCommentsFromStorageAlt (.arr [.obj []]) = [buildLoaded (.obj [])] ∧
    [buildLoaded (.obj [])] ≠ ([] : List LoadedComment) := by
  refine ⟨rfl, rfl, by simp, rfl, by simp⟩

/-! ## C6 : multi-space normalization (PreserveSpacesExtension) -/

/-- The NO-BREAK SPACE character U+00A0. -/
def nbsp : Char := ' '

/-- Emit a finished run of n pending plain spaces: a run of two or more is
replaced by the same number of NBSPs, a shorter run is kept as spaces. -/
def emitRun (n : Nat) (t : List Char) : List Char :=
  (if 2 ≤ n then List.replicate n nbsp else List.replicate n ' ') ++ t

/-- Scanner for text.replace(/ {2,}/g, m => nbsp.repeat(m.length)):
n counts the pending run of consecutive plain spaces. -/
def replAux : Nat → List Char → List Char
  | n, [] => emitRun n []
  | n, c :: rest =>
      if c == ' ' then replAux (n + 1) rest else emitRun n (c :: replAux 0 rest)

/-- replaceConsecutiveSpacesWithNbsp: each maximal run of two or more
consecutive plain spaces is rewritten to the same number of NBSPs; all other
characters, including isolated single spaces, are untouched. -/
def replaceConsecutiveSpacesWithNbsp (s : List Char) : List Char := replAux 0 s

/-- Follows the spec's words: a plain space belongs to a run of two or more
exactly when it has an adjacent plain space, so a space is rewritten to NBSP
iff the previous or the next character is a plain space, and every other
character is left unchanged.  prev records whether the previous character
was a plain space. -/
def nbspSpecAux : Bool → List Char → List Char
  | _, [] => []
  | prev, [c] => [if c == ' ' && prev then nbsp else c]
  | prev, c :: d :: rest =>
      (if c == ' ' && (prev || d == ' ') then nbsp else c) ::
        nbspSpecAux (c == ' ') (d :: rest)

/-- The specification-side normalization (no previous character at the
start). -/
def nbspSpec (s : List Char) : List Char := nbspSpecAux false s

/-- Length of the leading run of plain spaces. -/
def countLead (s : List Char) : Nat := (s.takeWhile (fun c => c == ' ')).length

/-- The input after its leading run of plain spaces. -/
def dropLead (s : List Char) : List Char := s.dropWhile (fun c => c == ' ')

/-- Continue the scanner after a finished run. -/
def afterRun : List Char → List Char
  | [] => []
  | c :: r => c :: replAux 0 r

/-- Continue the specification function after a finished run. -/
def specCont : List Char → List Char
  | [] => []
  | c :: r => c :: nbspSpecAux false r

/-- Whether the first character, if any, is not a plain space. -/
def headNotSpace : List Char → Prop
  | [] => True
  | c :: _ => c ≠ ' '

theorem takeWhile_space_replicate : ∀ s : List Char,
    s.takeWhile (fun c => c == ' ') = List.replicate (countLead s) ' '
  | [] => rfl
  | c :: rest => by
      unfold countLead
      by_cases hc : c == ' '
      · have hc' : c = ' ' := by simpa using hc
        subst hc'
        rw [List.takeWhile_cons]
        simp only [beq_self_eq_true, if_true]
        rw [List.length_cons, List.replicate_succ]
        rw [takeWhile_space_replicate rest]
        rw [List.length_replicate]
      · rw [List.takeWhile_cons, if_neg (by simpa using hc)]
        rfl

theorem headNotSpace_dropLead : ∀ s : List Char, headNotSpace (dropLead s)
  | [] => trivial
  | c :: rest => by
      unfold dropLead
      rw [List.dropWhile_cons]
      by_cases hc : c == ' '
      · rw [if_pos hc]
        exact headNotSpace_dropLead rest
      · rw [if_neg hc]
        simpa using hc

theorem replAux_run : ∀ (rest : List Char) (n : Nat),
    replAux n rest = emitRun (n + countLead rest) (afterRun (dropLead rest))
  | [], n => by simp [replAux, countLead, dropLead, afterRun]
  | c :: rest, n => by
      unfold replAux
      by_cases hc : c == ' '
      · rw [if_pos hc, replAux_run rest (n + 1)]
        unfold countLead dropLead
        rw [List.takeWhile_cons, if_pos hc, List.dropWhile_cons, if_pos hc]
        rw [List.length_cons]
        have h : n + 1 + (rest.takeWhile (fun c => c == ' ')).length =
            n + ((rest.takeWhile (fun c => c == ' ')).length + 1) := by omega
        rw [h]
      · rw [if_neg hc]
        unfold countLead dropLead
        rw [List.takeWhile_cons, if_neg hc, List.dropWhile_cons, if_neg hc]
        rfl

theorem nbspSpecAux_nonspace (d : List Char) (hd : headNotSpace d) :
    ∀ prev : Bool, nbspSpecAux prev d = specCont d := by
  intro prev
  rcases d with _ | ⟨c, r⟩
  · rfl
  · have hc : (c == ' ') = false := by
      simpa using hd
    rcases r with _ | ⟨e, r2⟩
    · unfold nbspSpecAux specCont
      rw [hc]
      rfl
    · unfold nbspSpecAux specCont
      rw [hc]
      rfl

theorem nbspSpecAux_true : ∀ (j : Nat) (d : List Char), headNotSpace d →
    nbspSpecAux true (List.replicate j ' ' ++ d) =
      List.replicate j nbsp ++ specCont d
  | 0, d, hd => by
      simp only [List.replicate, List.nil_append]
      exact nbspSpecAux_nonspace d hd true
  | j + 1, d, hd => by
      rw [List.replicate_succ, List.cons_append]
      rcases hj : List.replicate j ' ' ++ d with _ | ⟨e, es⟩
      · have h0 := List.append_eq_nil.mp hj
        have hj0 : j = 0 := by
          have := congrArg List.length h0.1
          simpa using this
        subst hj0
        rw [h0.2]
        rfl
      · rw [show nbspSpecAux true (' ' :: e :: es) =
            (if (' ' == ' ' && (true || e == ' ')) = true then nbsp else ' ') ::
              nbspSpecAux (' ' == ' ') (e :: es) from rfl]
        simp only [Bool.true_or, Bool.and_true, beq_self_eq_true, if_true]
        rw [← hj, nbspSpecAux_true j d hd]
        rw [List.replicate_succ, List.cons_append]

theorem nbspSpec_run : ∀ (k : Nat) (d : List Char), headNotSpace d →
    nbspSpecAux false (List.replicate k ' ' ++ d) =
      (if 2 ≤ k then List.replicate k nbsp else List.replicate k ' ') ++ specCont d
  | 0, d, hd => by
      simp only [List.replicate, List.nil_append]
      rw [if_neg (by omega)]
      exact nbspSpecAux_nonspace d hd false
  | 1, d, hd => by
      rw [if_neg (by omega)]
      rcases d with _ | ⟨c, r⟩
      · rfl
      · have hc : (c == ' ') = false := by simpa using hd
        rw [show List.replicate 1 ' ' ++ c :: r = ' ' :: c :: r from rfl]
        rw [show nbspSpecAux false (' ' :: c :: r) =
            (if (' ' == ' ' && (false || c == ' ')) = true then nbsp else ' ') ::
              nbspSpecAux (' ' == ' ') (c :: r) from rfl]
        rw [hc]
        simp only [Bool.false_or, Bool.and_false, beq_self_eq_true, if_false]
        rw [nbspSpecAux_nonspace (c :: r) hd true]
        rfl
  | k + 2, d, hd => by
      rw [if_pos (by omega)]
      rw [show List.replicate (k + 2) ' ' ++ d =
          ' ' :: (List.replicate (k + 1) ' ' ++ d) by
        rw [List.replicate_succ, List.cons_append]]
      have hrep : List.replicate (k + 1) ' ' ++ d = ' ' :: (List.replicate k ' ' ++ d) := by
        rw [List.replicate_succ, List.cons_append]
      rw [show nbspSpecAux false (' ' :: (List.replicate (k + 1) ' ' ++ d)) =
          nbspSpecAux false (' ' :: ' ' :: (List.replicate k ' ' ++ d)) by rw [hrep]]
      rw [show nbspSpecAux false (' ' :: ' ' :: (List.replicate k ' ' ++ d)) =
          (if (' ' == ' ' && (false || ' ' == ' ')) = true then nbsp else ' ') ::
            nbspSpecAux (' ' == ' ') (' ' :: (List.replicate k ' ' ++ d)) from rfl]
      simp only [beq_self_eq_true, Bool.or_true, Bool.and_true, if_true]
      rw [show (' ' :: (List.replicate k ' ' ++ d)) =
          List.replicate (k + 1) ' ' ++ d from hrep.symm]
      rw [nbspSpecAux_true (k + 1) d hd]
      simp [List.replicate_succ]

theorem replAux0_eq_spec (s : List Char) : replAux 0 s = nbspSpecAux false s := by
  rw [replAux_run s 0, Nat.zero_add]
  have hsplit : List.replicate (countLead s) ' ' ++ dropLead s = s := by
    rw [← takeWhile_space_replicate s]
    unfold dropLead
    exact List.takeWhile_append_dropWhile (fun c => c == ' ') s
  conv_rhs => rw [← hsplit]
  rw [nbspSpec_run (countLead s) (dropLead s) (headNotSpace_dropLead s)]
  unfold emitRun
  congr 1
  rcases hd : dropLead s with _ | ⟨c, r⟩
  · rfl
  · unfold afterRun specCont
    dsimp only
    rw [replAux0_eq_spec r]
termination_by s.length
decreasing_by
  have hlen := congrArg List.length hsplit
  rw [hd] at hlen
  simp only [List.length_append, List.length_replicate, List.length_cons] at hlen
  omega

/-- C6: replaceConsecutiveSpacesWithNbsp rewrites each maximal run of two or
more consecutive plain spaces (U+0020) into the same number of NBSPs
(U+00A0) and leaves every other character — in particular every isolated
single space — unchanged: it coincides with the spec-side characterization
nbspSpec (a space becomes NBSP iff an adjacent character is a space), and on
the spec's examples 'a   b' (3 spaces) becomes 'a' + 3 NBSPs + 'b' while
'a b' is returned unchanged. -/
theorem replaceConsecutiveSpaces_spec :
    (∀ s : List Char, replaceConsecutiveSpacesWithNbsp s = nbspSpec s) ∧
    replaceConsecutiveSpacesWithNbsp "a   b".toList = ['a', nbsp, nbsp, nbsp, 'b'] ∧
    replaceConsecutiveSpacesWithNbsp "a b".toList = "a b".toList :=
  ⟨fun s => replAux0_eq_spec s, by decide, by decide⟩
